import Mathlib

/-!
Verification development for the data-preparation module `data_utils.py` of
the Device-fpr-detecing-signal-of-elderly repository.

The module is a linear pipeline over in-memory arrays:
  load_data_from_files  -> prepare_data (sliding windows)
  -> balance_classes (random under-sampling)
  -> stratified train/test split + class weights.

We embed it shallowly: numpy arrays become `List`s, pandas tables become
`List (List Int)` (rows of cells), randomness (`np.random.choice`,
`np.random.shuffle`, `train_test_split`'s shuffling) becomes explicit
function parameters constrained by hypotheses, and Python exceptions
(IndexError on `sorted_counts[-2]`, ValueError from `np.vstack([])` and
from `train_test_split` on degenerate inputs) become `Option.none`.
-/

namespace DataUtils

/-- The `class_names` dictionary literal inside `get_class_name`. -/
def classNames : List (Int × String) :=
  [(0, "Non-request"), (1, "Both hands"), (2, "Left hand"), (3, "Right hand")]

/-- Source `get_class_name`: `class_names.get(feature_value, "Unknown")`,
a dictionary lookup with default. -/
def get_class_name (featureValue : Int) : String :=
  (classNames.lookup featureValue).getD "Unknown"

/-- Per-file feature extraction of `load_data_from_files`:
`data.iloc[:, 1:-2].values`, i.e. for each row the cells from column 1 up to
(excluding) column `m - 2`. -/
def extractFeatures (table : List (List Int)) : List (List Int) :=
  table.map (fun row => (row.drop 1).take (row.length - 3))

/-- Per-file label extraction of `load_data_from_files`:
`data.iloc[:, -2].values`, i.e. for each row the cell at column `m - 2`. -/
def extractLabels (table : List (List Int)) : List Int :=
  table.map (fun row => row.getD (row.length - 2) 0)

/-- Number of iterations of Python `range(0, stop, step)` for `step ≥ 1`;
`stop` may be a negative expression, hence `Int`. -/
def pyRangeLen (stop : Int) (step : Nat) : Nat :=
  if stop ≤ 0 then 0 else (stop - 1).toNat / step + 1

/-- Python `range(0, stop, step)` for `step ≥ 1`, as the list of visited
indices `0, step, 2*step, ...`. -/
def pyRange (stop : Int) (step : Nat) : List Nat :=
  (List.range (pyRangeLen stop step)).map (fun k => k * step)

/-- Source `prepare_data`: the loop
`for i in range(0, len(features) - window_size + 1, stride)` appends the
window `features[i : i + window_size]` to `X` and the label
`labels[i + window_size - 1]` to `y`. -/
def prepare_data (features : List (List Int)) (labels : List Int)
    (windowSize : Nat := 20) (stride : Nat := 1) :
    List (List (List Int)) × List Int :=
  let idxs := pyRange ((features.length : Int) - windowSize + 1) stride
  (idxs.map (fun i => (features.drop i).take windowSize),
   idxs.map (fun i => labels.getD (i + windowSize - 1) 0))

/-- Suffix test on character lists: Python `str.endswith`. -/
def listEndsWith (l suf : List Char) : Bool :=
  decide (suf.length ≤ l.length) && (l.drop (l.length - suf.length) == suf)

/-- Python `filename.endswith('.csv')` on a filename string. -/
def isCsvName (name : String) : Bool :=
  listEndsWith name.data ['.', 'c', 's', 'v']

/-- One iteration of the loop of `load_data_from_files`: a filename ending
in ".csv" appends its feature block and label column to the accumulators,
any other filename is skipped. -/
def loadStep (acc : List (List (List Int)) × List (List Int))
    (f : String × List (List Int)) :
    List (List (List Int)) × List (List Int) :=
  if isCsvName f.1 then
    (acc.1 ++ [extractFeatures f.2], acc.2 ++ [extractLabels f.2])
  else acc

/-- Source `load_data_from_files`, the directory listing supplied as a list
of (filename, parsed CSV table) pairs in `os.listdir` order. The final
`np.vstack` on an empty list raises ValueError, modelled as `none`. -/
def load_data_from_files (dir : List (String × List (List Int))) :
    Option (List (List Int) × List Int) :=
  let acc := dir.foldl loadStep ([], [])
  if acc.1.isEmpty then none else some (acc.1.flatten, acc.2.flatten)

/-- `np.unique` of the label vector: its distinct values in ascending
order. -/
def uniqueClasses (y : List Int) : List Int :=
  List.insertionSort (· ≤ ·) y.dedup

/-- `np.where(y_np == cls)[0]`: the ascending positions of class `c` in
`y`. -/
def classIndices (y : List Int) (c : Int) : List Nat :=
  (List.range y.length).filter (fun i => decide (y.getD i 0 = c))

/-- The `target_size is None` branch of `balance_classes`:
`int(np.sort(class_counts)[-2])`. Indexing `[-2]` raises IndexError when
fewer than two classes are present, modelled as `none`. -/
def defaultTarget (y : List Int) : Option Nat :=
  let sortedCounts :=
    List.insertionSort (· ≤ ·) ((uniqueClasses y).map (fun c => y.count c))
  if 2 ≤ sortedCounts.length then
    some (sortedCounts.getD (sortedCounts.length - 2) 0)
  else none

/-- The body of the per-class loop of `balance_classes`: all positions of
the class when it has at most `target` samples, otherwise a random choice
(`select`, modelling `np.random.choice(..., replace=False)`) of `target`
of them. -/
def classSelection (select : List Nat → Nat → List Nat) (y : List Int)
    (target : Nat) (c : Int) : List Nat :=
  let ci := classIndices y c
  if target < ci.length then select ci target else ci

/-- The `balanced_indices` list of `balance_classes`, before the final
shuffle: per-class selections concatenated in `np.unique` class order. -/
def balancedIndices (select : List Nat → Nat → List Nat) (y : List Int)
    (target : Nat) : List Nat :=
  ((uniqueClasses y).map (classSelection select y target)).flatten

/-- The target size actually used by `balance_classes`: the argument when
supplied (Python `target_size is not None`), otherwise the second-largest
class size computed by `defaultTarget`. -/
def resolvedTarget (y : List Int) (targetSize : Option Nat) : Option Nat :=
  match targetSize with
  | some t => some t
  | none => defaultTarget y

/-- Source `balance_classes`, with `np.random.choice` and
`np.random.shuffle` supplied as function parameters `select` and
`shuffle`. -/
def balance_classes (select : List Nat → Nat → List Nat)
    (shuffle : List Nat → List Nat) (X : List (List Int)) (y : List Int)
    (targetSize : Option Nat) : Option (List (List Int) × List Int) :=
  match resolvedTarget y targetSize with
  | none => none
  | some t =>
      let idx := shuffle (balancedIndices select y t)
      some (idx.map (fun i => X.getD i []), idx.map (fun i => y.getD i 0))

/-- What `np.random.choice(l, size=n, replace=False)` guarantees about its
result: `n` elements, all drawn from `l`, pairwise-distinct positions (so
no duplicates when `l` has none). -/
def SelectSpec (select : List Nat → Nat → List Nat) : Prop :=
  ∀ l n, n ≤ l.length →
    (select l n).length = n ∧ (∀ x ∈ select l n, x ∈ l) ∧
    (l.Nodup → (select l n).Nodup)

/-- What a random shuffle guarantees: the result is a permutation of the
input. -/
def ShuffleSpec {α : Type} (shuffle : List α → List α) : Prop :=
  ∀ l, (shuffle l).Perm l

/-- `sklearn.train_test_split` with `test_size=0.2`: the test set receives
`ceil(0.2 * n)` samples. -/
def testCount (n : Nat) : Nat := (n + 4) / 5

/-- `train_test_split(X_class, y_class, test_size=0.2, random_state=42)` on
the rows of one class, modelled on (feature row, label) pairs with the
random permutation supplied as `shuffle`. sklearn raises ValueError when
the resulting train or test set would be empty, modelled as `none`. -/
def train_test_split_pairs
    (shuffle : List (List Int × Int) → List (List Int × Int))
    (l : List (List Int × Int)) :
    Option (List (List Int × Int) × List (List Int × Int)) :=
  let nTest := testCount l.length
  if l.length - nTest = 0 ∨ nTest = 0 then none
  else some ((shuffle l).drop nTest, (shuffle l).take nTest)

/-- The per-class split loop of `prepare_train_test_data`, iterating over
a list of class values and collecting per-class train/test parts, failing
when any per-class `train_test_split` raises. -/
def splitClasses
    (shuffle : List (List Int × Int) → List (List Int × Int))
    (pairs : List (List Int × Int)) :
    List Int →
      Option (List (List (List Int × Int)) × List (List (List Int × Int)))
  | [] => some ([], [])
  | c :: cs =>
      match train_test_split_pairs shuffle
          (pairs.filter (fun p => decide (p.2 = c))),
        splitClasses shuffle pairs cs with
      | some (tr, te), some (trs, tes) => some (tr :: trs, te :: tes)
      | _, _ => none

/-- The stratified-split stage of `prepare_train_test_data` (lines
151-170): the dataset is masked per class value `i` for
`i in range(len(unique_labels))`, each class is split by
`train_test_split`, and the per-class parts are concatenated by
`torch.cat`. -/
def stratifiedSplit
    (shuffle : List (List Int × Int) → List (List Int × Int))
    (Xb : List (List Int)) (yb : List Int) :
    Option (List (List Int) × List (List Int) × List Int × List Int) :=
  let pairs := Xb.zip yb
  let classList := (List.range (uniqueClasses yb).length).map
    (fun i => (i : Int))
  match splitClasses shuffle pairs classList with
  | none => none
  | some (trs, tes) =>
      some (trs.flatten.map Prod.fst, tes.flatten.map Prod.fst,
        trs.flatten.map Prod.snd, tes.flatten.map Prod.snd)

/-- The class-weight stage of `prepare_train_test_data` (lines 172-177):
`compute_class_weight('balanced', classes=np.unique(y_balanced),
y=y_balanced)`. Following sklearn, the labels are encoded as indices into
the sorted class list, and the weight of the `k`-th class is
`len(y) / (n_classes * bincount(y_ind)[k])`, here over exact rationals. -/
def compute_class_weight (y : List Int) : List ℚ :=
  let classes := uniqueClasses y
  let yInd := y.map (fun v => classes.indexOf v)
  let bc := (List.range classes.length).map (fun i => yInd.count i)
  (List.range classes.length).map
    (fun i => (y.length : ℚ) / (classes.length * (bc.getD i 0)))

/-- A deterministic instance of `np.random.choice(l, n, replace=False)`
used by witnesses: take the first `n` elements. -/
def takeSelect (l : List Nat) (n : Nat) : List Nat := l.take n

end DataUtils

namespace DataUtils

/-- `getD` of a mapped list at an in-bounds index. -/
theorem getD_map_of_lt {α β : Type} (f : α → β) (l : List α) {k : Nat}
    (h : k < l.length) (d : β) : (l.map f).getD k d = f (l[k]) := by
  rw [List.getD_eq_getElem?_getD, List.getElem?_map,
    List.getElem?_eq_getElem h]
  rfl

/-- Length of `pyRange`. -/
theorem pyRange_length (stop : Int) (step : Nat) :
    (pyRange stop step).length = pyRangeLen stop step := by
  simp [pyRange]

/-- The `k`-th visited index of `pyRange` is `k * step`. -/
theorem pyRange_getD (stop : Int) (step : Nat) {k : Nat}
    (hk : k < pyRangeLen stop step) :
    (pyRange stop step).getD k 0 = k * step := by
  rw [pyRange, getD_map_of_lt _ _ (by simpa using hk)]
  simp

/-- The accumulation loop of `load_data_from_files` computes the filtered,
per-file extractions in listing order. -/
theorem load_foldl_eq (dir : List (String × List (List Int))) :
    ∀ (a : List (List (List Int))) (b : List (List Int)),
      dir.foldl loadStep (a, b) =
        (a ++ (dir.filter (fun f => isCsvName f.1)).map
          (fun f => extractFeatures f.2),
         b ++ (dir.filter (fun f => isCsvName f.1)).map
          (fun f => extractLabels f.2)) := by
  induction dir with
  | nil => intro a b; simp
  | cons f fs ih =>
      intro a b
      by_cases hf : isCsvName f.1 <;>
        simp [loadStep, hf, ih, List.filter_cons]

/-- Claim C8: `get_class_name` is total on the integers and realizes the
fixed four-class mapping, returning "Unknown" on every other input. -/
theorem get_class_name_spec (v : Int) :
    get_class_name v =
      if v = 0 then "Non-request"
      else if v = 1 then "Both hands"
      else if v = 2 then "Left hand"
      else if v = 3 then "Right hand"
      else "Unknown" := by
  have h0 : (v == (0 : Int)) = decide (v = 0) := by
    simp [BEq.beq, decide_eq_decide]
  have h1 : (v == (1 : Int)) = decide (v = 1) := by
    simp [BEq.beq, decide_eq_decide]
  have h2 : (v == (2 : Int)) = decide (v = 2) := by
    simp [BEq.beq, decide_eq_decide]
  have h3 : (v == (3 : Int)) = decide (v = 3) := by
    simp [BEq.beq, decide_eq_decide]
  simp only [get_class_name, classNames, List.lookup, h0, h1, h2, h3]
  by_cases e0 : v = 0 <;> by_cases e1 : v = 1 <;> by_cases e2 : v = 2 <;>
    by_cases e3 : v = 3 <;> simp_all

/-- Claim C2: for a rectangular table with `m ≥ 3` columns, the extracted
feature matrix keeps, row by row, exactly the cells at columns
`1 .. m - 3` (dropping the first column and the last two), and the
extracted label of each row is the cell at column `m - 2`. -/
theorem extract_columns (t : List (List Int)) (m : Nat) (hm : 3 ≤ m)
    (hrect : ∀ row ∈ t, row.length = m) (r : Nat) (hr : r < t.length) :
    ((extractFeatures t).getD r []).length = m - 3 ∧
    (∀ j, j < m - 3 →
      ((extractFeatures t).getD r []).getD j 0 = (t.getD r []).getD (j + 1) 0) ∧
    (extractLabels t).getD r 0 = (t.getD r []).getD (m - 2) 0 := by
  have hrow : (t[r]).length = m := hrect _ (List.getElem_mem hr)
  have htD : t.getD r [] = t[r] := by
    rw [List.getD_eq_getElem?_getD, List.getElem?_eq_getElem hr]; rfl
  have hF : (extractFeatures t).getD r [] =
      ((t[r]).drop 1).take ((t[r]).length - 3) := by
    rw [extractFeatures, getD_map_of_lt _ _ hr]
  have hL : (extractLabels t).getD r 0 =
      (t[r]).getD ((t[r]).length - 2) 0 := by
    rw [extractLabels, getD_map_of_lt _ _ hr]
  refine ⟨?_, ?_, ?_⟩
  · rw [hF, List.length_take, List.length_drop, hrow]
    omega
  · intro j hj
    rw [hF, htD, List.getD_eq_getElem?_getD, List.getD_eq_getElem?_getD,
      List.getElem?_take, List.getElem?_drop]
    rw [hrow]
    rw [if_pos hj]
    have : 1 + j = j + 1 := by omega
    rw [this]
  · rw [hL, htD, hrow]

/-- Claim C1: with `1 ≤ w`, `1 ≤ s`, `w ≤ n` and matching label length,
`prepare_data` produces exactly `(n - w) / s + 1` windows; the `k`-th
window has exactly `w` rows which are the contiguous feature rows at
indices `k*s .. k*s + w - 1`, and the `k`-th label is the (in-bounds)
label of the window's final row, `labels[k*s + w - 1]`. -/
theorem prepare_data_windows (features : List (List Int)) (labels : List Int)
    (w s : Nat) (hw : 1 ≤ w) (hs : 1 ≤ s)
    (hn : w ≤ features.length) (hlen : labels.length = features.length) :
    (prepare_data features labels w s).1.length =
      (features.length - w) / s + 1 ∧
    (prepare_data features labels w s).2.length =
      (features.length - w) / s + 1 ∧
    ∀ k, k < (features.length - w) / s + 1 →
      ((prepare_data features labels w s).1.getD k []).length = w ∧
      (∀ j, j < w →
        ((prepare_data features labels w s).1.getD k []).getD j [] =
          features.getD (k * s + j) []) ∧
      k * s + w - 1 < labels.length ∧
      (prepare_data features labels w s).2.getD k 0 =
        labels.getD (k * s + w - 1) 0 := by
  set n := features.length with hn_def
  have hstop : ((n : Int) - w + 1) - 1 = ((n - w : Nat) : Int) := by
    omega
  have hpos : ¬ ((n : Int) - w + 1 ≤ 0) := by omega
  have hLen : pyRangeLen ((n : Int) - w + 1) s = (n - w) / s + 1 := by
    rw [pyRangeLen, if_neg hpos, hstop]
    simp
  have hbound : ∀ k, k < (n - w) / s + 1 → k * s + w ≤ n := by
    intro k hk
    have hk' : k ≤ (n - w) / s := by omega
    have h1 : k * s ≤ ((n - w) / s) * s := Nat.mul_le_mul_right s hk'
    have h2 : ((n - w) / s) * s ≤ n - w := Nat.div_mul_le_self _ _
    omega
  refine ⟨?_, ?_, ?_⟩
  · simp [prepare_data, pyRange, hLen]
  · simp [prepare_data, pyRange, hLen]
  · intro k hk
    have hkp : k < (pyRange ((n : Int) - w + 1) s).length := by
      simpa [pyRange_length, hLen] using hk
    have hidx : (pyRange ((n : Int) - w + 1) s)[k] = k * s := by
      have := pyRange_getD ((n : Int) - w + 1) s (k := k) (by simpa [hLen] using hk)
      rwa [List.getD_eq_getElem?_getD, List.getElem?_eq_getElem hkp] at this
    have hX : (prepare_data features labels w s).1.getD k [] =
        (features.drop (k * s)).take w := by
      rw [prepare_data]
      rw [getD_map_of_lt _ _ hkp]
      rw [hidx]
    have hY : (prepare_data features labels w s).2.getD k 0 =
        labels.getD (k * s + w - 1) 0 := by
      rw [prepare_data]
      rw [getD_map_of_lt _ _ hkp]
      rw [hidx]
    refine ⟨?_, ?_, ?_, hY⟩
    · rw [hX, List.length_take, List.length_drop]
      have := hbound k hk
      omega
    · intro j hj
      rw [hX, List.getD_eq_getElem?_getD, List.getD_eq_getElem?_getD,
        List.getElem?_take, List.getElem?_drop, if_pos hj]
    · have := hbound k hk
      omega

/-- Witness for C1 at a concrete input: 5 feature rows, window 3, stride 2. -/
theorem prepare_data_windows_witness :
    (1 ≤ 3 ∧ 1 ≤ 2 ∧ 3 ≤ ([[10], [11], [12], [13], [14]] : List (List Int)).length ∧
      ([0, 1, 2, 3, 4] : List Int).length = ([[10], [11], [12], [13], [14]] : List (List Int)).length) ∧
    ((prepare_data [[10], [11], [12], [13], [14]] [0, 1, 2, 3, 4] 3 2).1.length =
      (([[10], [11], [12], [13], [14]] : List (List Int)).length - 3) / 2 + 1 ∧
    (prepare_data [[10], [11], [12], [13], [14]] [0, 1, 2, 3, 4] 3 2).2.length =
      (([[10], [11], [12], [13], [14]] : List (List Int)).length - 3) / 2 + 1 ∧
    ∀ k, k < (([[10], [11], [12], [13], [14]] : List (List Int)).length - 3) / 2 + 1 →
      ((prepare_data [[10], [11], [12], [13], [14]] [0, 1, 2, 3, 4] 3 2).1.getD k []).length = 3 ∧
      (∀ j, j < 3 →
        ((prepare_data [[10], [11], [12], [13], [14]] [0, 1, 2, 3, 4] 3 2).1.getD k []).getD j [] =
          ([[10], [11], [12], [13], [14]] : List (List Int)).getD (k * 2 + j) []) ∧
      k * 2 + 3 - 1 < ([0, 1, 2, 3, 4] : List Int).length ∧
      (prepare_data [[10], [11], [12], [13], [14]] [0, 1, 2, 3, 4] 3 2).2.getD k 0 =
        ([0, 1, 2, 3, 4] : List Int).getD (k * 2 + 3 - 1) 0) :=
  ⟨⟨by decide, by decide, by decide, by decide⟩,
    prepare_data_windows [[10], [11], [12], [13], [14]] [0, 1, 2, 3, 4] 3 2
      (by decide) (by decide) (by decide) (by decide)⟩

/-- Witness for C2 at a concrete one-row table with 6 columns. -/
theorem extract_columns_witness :
    (3 ≤ 6 ∧ (∀ row ∈ ([[9, 1, 2, 3, 7, 5]] : List (List Int)), row.length = 6) ∧
      0 < ([[9, 1, 2, 3, 7, 5]] : List (List Int)).length) ∧
    (((extractFeatures [[9, 1, 2, 3, 7, 5]]).getD 0 []).length = 6 - 3 ∧
    (∀ j, j < 6 - 3 →
      ((extractFeatures [[9, 1, 2, 3, 7, 5]]).getD 0 []).getD j 0 =
        (([[9, 1, 2, 3, 7, 5]] : List (List Int)).getD 0 []).getD (j + 1) 0) ∧
    (extractLabels [[9, 1, 2, 3, 7, 5]]).getD 0 0 =
      (([[9, 1, 2, 3, 7, 5]] : List (List Int)).getD 0 []).getD (6 - 2) 0) :=
  ⟨⟨by decide, by decide, by decide⟩,
    extract_columns [[9, 1, 2, 3, 7, 5]] 6 (by decide) (by decide) 0 (by decide)⟩

/-- Claim C6: `load_data_from_files` reads exactly the filenames ending in
".csv" and returns the row-wise concatenation of the per-file feature
matrices and the concatenation of the per-file label vectors, in
directory-listing order. -/
theorem load_data_from_files_concat (dir : List (String × List (List Int)))
    (h : ∃ f ∈ dir, isCsvName f.1) :
    load_data_from_files dir = some
      (((dir.filter (fun f => isCsvName f.1)).map
          (fun f => extractFeatures f.2)).flatten,
       ((dir.filter (fun f => isCsvName f.1)).map
          (fun f => extractLabels f.2)).flatten) := by
  obtain ⟨f, hfmem, hfcsv⟩ := h
  have hne : (dir.filter (fun f => isCsvName f.1)).map
      (fun f => extractFeatures f.2) ≠ [] := by
    intro hnil
    have : f ∈ dir.filter (fun f => isCsvName f.1) :=
      List.mem_filter.mpr ⟨hfmem, hfcsv⟩
    rw [List.map_eq_nil] at hnil
    rw [hnil] at this
    exact List.not_mem_nil f this
  rw [load_data_from_files, load_foldl_eq dir [] []]
  simp only [List.nil_append]
  rw [if_neg (by simpa [List.isEmpty_iff] using hne)]

/-- Witness for C6: a directory with two csv files and one other file. -/
theorem load_data_from_files_concat_witness :
    (∃ f ∈ ([(".csv", [[1, 2, 3, 4]]), ("n.txt", [[5, 5, 5, 5]]),
        ("b.csv", [[5, 6, 7, 8]])] : List (String × List (List Int))),
      isCsvName f.1) ∧
    load_data_from_files
      [(".csv", [[1, 2, 3, 4]]), ("n.txt", [[5, 5, 5, 5]]),
        ("b.csv", [[5, 6, 7, 8]])] = some
      (((([(".csv", [[1, 2, 3, 4]]), ("n.txt", [[5, 5, 5, 5]]),
          ("b.csv", [[5, 6, 7, 8]])] : List (String × List (List Int))).filter
            (fun f => isCsvName f.1)).map
          (fun f => extractFeatures f.2)).flatten,
       ((([(".csv", [[1, 2, 3, 4]]), ("n.txt", [[5, 5, 5, 5]]),
          ("b.csv", [[5, 6, 7, 8]])] : List (String × List (List Int))).filter
            (fun f => isCsvName f.1)).map
          (fun f => extractLabels f.2)).flatten) :=
  ⟨⟨(".csv", [[1, 2, 3, 4]]), by decide, by decide⟩,
    load_data_from_files_concat _ ⟨(".csv", [[1, 2, 3, 4]]), by decide, by decide⟩⟩

/-- Claim C7: when no filename in the directory ends in ".csv",
`load_data_from_files` raises (the `np.vstack` of an empty list), modelled
as `none`, rather than returning empty arrays. -/
theorem load_data_from_files_no_csv (dir : List (String × List (List Int)))
    (h : ∀ f ∈ dir, ¬ isCsvName f.1) :
    load_data_from_files dir = none := by
  have hfil : dir.filter (fun f => isCsvName f.1) = [] := by
    rw [List.filter_eq_nil]
    intro f hf
    simpa using h f hf
  rw [load_data_from_files, load_foldl_eq dir [] []]
  simp [hfil]

/-- Witness for C7: a directory whose two files are not csv files. -/
theorem load_data_from_files_no_csv_witness :
    (∀ f ∈ ([("a.txt", [[1, 2, 3, 4]]), ("csv.x", [[5, 6, 7, 8]])] :
        List (String × List (List Int))), ¬ isCsvName f.1) ∧
    load_data_from_files
      [("a.txt", [[1, 2, 3, 4]]), ("csv.x", [[5, 6, 7, 8]])] = none :=
  ⟨by decide, load_data_from_files_no_csv _ (by decide)⟩

/-- Membership in `np.unique(y)` is membership in `y`. -/
theorem mem_uniqueClasses {y : List Int} {c : Int} :
    c ∈ uniqueClasses y ↔ c ∈ y := by
  rw [uniqueClasses, List.mem_insertionSort, List.mem_dedup]

/-- `np.unique(y)` has no duplicate classes. -/
theorem uniqueClasses_nodup (y : List Int) : (uniqueClasses y).Nodup := by
  rw [uniqueClasses]
  exact (List.perm_insertionSort _ y.dedup).symm.nodup (List.nodup_dedup y)

/-- Membership in `np.where(y == c)[0]`. -/
theorem mem_classIndices {y : List Int} {c : Int} {i : Nat} :
    i ∈ classIndices y c ↔ i < y.length ∧ y.getD i 0 = c := by
  simp [classIndices, List.mem_filter, List.mem_range]

/-- The positions of class `c` are pairwise distinct. -/
theorem classIndices_nodup (y : List Int) (c : Int) :
    (classIndices y c).Nodup :=
  (List.nodup_range _).filter _

/-- Every listed position of class `c` really carries label `c`. -/
theorem label_of_mem_classIndices {y : List Int} {c : Int} {i : Nat}
    (h : i ∈ classIndices y c) : y.getD i 0 = c :=
  (mem_classIndices.mp h).2

/-- `np.where(y == c)[0]` lists exactly `count(c)` positions. -/
theorem classIndices_length (y : List Int) (c : Int) :
    (classIndices y c).length = y.count c := by
  induction y with
  | nil => simp [classIndices]
  | cons a ys ih =>
      have hcomp : (fun i => decide ((a :: ys).getD i 0 = c)) ∘ Nat.succ
          = fun i => decide (ys.getD i 0 = c) := by
        funext i
        simp [List.getD_cons_succ]
      rw [classIndices, List.length_cons, List.range_succ_eq_map,
        List.filter_cons, List.filter_map, hcomp]
      rw [classIndices] at ih
      simp only [List.getD_eq_getElem?_getD] at ih
      by_cases hac : a = c
      · simp [hac, List.count_cons, ih]
      · simp [hac, List.count_cons, ih]

/-- Size of the per-class selection: all `count(c)` positions when the
class is small enough, otherwise `target` of them. -/
theorem classSelection_length {select : List Nat → Nat → List Nat}
    (hsel : SelectSpec select) (y : List Int) (t : Nat) (c : Int) :
    (classSelection select y t c).length = min (y.count c) t := by
  rw [classSelection]
  by_cases h : t < (classIndices y c).length
  · rw [if_pos h, (hsel _ t (le_of_lt h)).1]
    rw [classIndices_length] at h
    omega
  · rw [if_neg h, classIndices_length]
    rw [classIndices_length] at h
    omega

/-- The per-class selection only draws positions of that class. -/
theorem classSelection_subset {select : List Nat → Nat → List Nat}
    (hsel : SelectSpec select) (y : List Int) (t : Nat) (c : Int) :
    ∀ x ∈ classSelection select y t c, x ∈ classIndices y c := by
  intro x hx
  rw [classSelection] at hx
  by_cases h : t < (classIndices y c).length
  · rw [if_pos h] at hx
    exact (hsel _ t (le_of_lt h)).2.1 x hx
  · rwa [if_neg h] at hx

/-- The per-class selection has no duplicate positions. -/
theorem classSelection_nodup {select : List Nat → Nat → List Nat}
    (hsel : SelectSpec select) (y : List Int) (t : Nat) (c : Int) :
    (classSelection select y t c).Nodup := by
  rw [classSelection]
  by_cases h : t < (classIndices y c).length
  · rw [if_pos h]
    exact (hsel _ t (le_of_lt h)).2.2 (classIndices_nodup y c)
  · rw [if_neg h]
    exact classIndices_nodup y c

/-- Counting a class among the labels of positions that all carry one
fixed class. -/
theorem count_map_getD_of_const {y : List Int} {cBlock c : Int} {l : List Nat}
    (hl : ∀ i ∈ l, y.getD i 0 = cBlock) :
    ((l.map (fun i => y.getD i 0)).count c) =
      if cBlock = c then l.length else 0 := by
  rw [List.count_eq_countP, List.countP_map]
  by_cases h : cBlock = c
  · rw [if_pos h]
    apply List.countP_eq_length.mpr
    intro i hi
    show (y.getD i 0 == c) = true
    rw [hl i hi, h]
    simp
  · rw [if_neg h]
    apply List.countP_eq_zero.mpr
    intro i hi
    show ¬ (y.getD i 0 == c) = true
    rw [hl i hi]
    simp [h]

/-- Summing a function that vanishes away from the single occurrence of
`c` in a duplicate-free list. -/
theorem sum_map_ite_eq {C : List Int} (hC : C.Nodup) {c : Int} (hc : c ∈ C)
    (A : Int → Nat) :
    (C.map (fun x => if x = c then A x else 0)).sum = A c := by
  induction C with
  | nil => cases hc
  | cons a cs ih =>
      rw [List.map_cons, List.sum_cons]
      rcases List.mem_cons.mp hc with h | h
      · subst h
        rw [if_pos rfl]
        have hz : (cs.map fun x => if x = c then A x else 0).sum = 0 := by
          apply List.sum_eq_zero
          intro x hx
          obtain ⟨x0, hx0, rfl⟩ := List.mem_map.mp hx
          rw [if_neg]
          intro he
          exact (List.nodup_cons.mp hC).1 (he ▸ hx0)
        rw [hz]
        omega
      · have hna : a ≠ c := by
          intro he
          exact (List.nodup_cons.mp hC).1 (he ▸ h)
        rw [if_neg hna, ih (List.nodup_cons.mp hC).2 h]
        omega

/-- Class counts of the labels selected by `balanced_indices`: each class
present in `y` contributes `min(count(c), target)` positions. -/
theorem balancedIndices_label_count {select : List Nat → Nat → List Nat}
    (hsel : SelectSpec select) (y : List Int) (t : Nat) {c : Int}
    (hc : c ∈ y) :
    ((balancedIndices select y t).map (fun i => y.getD i 0)).count c
      = min (y.count c) t := by
  rw [balancedIndices, List.map_flatten, List.map_map, List.count_flatten,
    List.map_map]
  have hcongr : (uniqueClasses y).map
      (List.count c ∘ (List.map fun i => y.getD i 0) ∘
        classSelection select y t)
      = (uniqueClasses y).map
        (fun x => if x = c then min (y.count x) t else 0) := by
    apply List.map_congr_left
    intro cb _
    have hblock := @count_map_getD_of_const y cb c
      (classSelection select y t cb)
      (fun i hi => label_of_mem_classIndices
        (classSelection_subset hsel y t cb i hi))
    by_cases h : cb = c
    · simp only [Function.comp]
      rw [hblock, if_pos h, if_pos h, classSelection_length hsel]
    · simp only [Function.comp]
      rw [hblock, if_neg h, if_neg h]
  rw [hcongr]
  exact sum_map_ite_eq (uniqueClasses_nodup y) (mem_uniqueClasses.mpr hc) _

/-- Claim C3: with at least two distinct classes present, `balance_classes`
succeeds; the target is the supplied argument when given and otherwise the
code's second-largest class size, and each class present in `y` appears in
the balanced labels exactly `min(count(c), target)` times — never more
than before (under-sampling only). -/
theorem balance_classes_counts (select : List Nat → Nat → List Nat)
    (shuffle : List Nat → List Nat) (X : List (List Int)) (y : List Int)
    (targetSize : Option Nat) (hsel : SelectSpec select)
    (hshuf : ShuffleSpec shuffle)
    (h2 : 2 ≤ (uniqueClasses y).length) :
    ∃ t Xb yb,
      resolvedTarget y targetSize = some t ∧
      (∀ t0, targetSize = some t0 → t = t0) ∧
      balance_classes select shuffle X y targetSize = some (Xb, yb) ∧
      ∀ c, c ∈ y →
        yb.count c = min (y.count c) t ∧ yb.count c ≤ y.count c := by
  have hres : ∃ t, resolvedTarget y targetSize = some t ∧
      (∀ t0, targetSize = some t0 → t = t0) := by
    rcases targetSize with _ | t0
    · have hlen : (List.insertionSort (· ≤ ·)
          ((uniqueClasses y).map (fun c => y.count c))).length =
          (uniqueClasses y).length := by
        rw [(List.perm_insertionSort _ _).length_eq, List.length_map]
      have hsome : ∃ v, defaultTarget y = some v := by
        simp only [defaultTarget]
        rw [if_pos (by rw [hlen]; exact h2)]
        exact ⟨_, rfl⟩
      obtain ⟨v, hv⟩ := hsome
      exact ⟨v, by simp [resolvedTarget, hv], fun t0 h0 => by cases h0⟩
    · exact ⟨t0, rfl, fun t1 h1 => by cases h1; rfl⟩
  obtain ⟨t, hres, hsup⟩ := hres
  refine ⟨t, (shuffle (balancedIndices select y t)).map (fun i => X.getD i []),
    (shuffle (balancedIndices select y t)).map (fun i => y.getD i 0),
    hres, hsup, ?_, ?_⟩
  · rw [balance_classes, hres]
  · intro c hc
    have hperm : ((shuffle (balancedIndices select y t)).map
        (fun i => y.getD i 0)).Perm
        ((balancedIndices select y t).map (fun i => y.getD i 0)) :=
      (hshuf _).map _
    rw [hperm.count_eq c, balancedIndices_label_count hsel y t hc]
    exact ⟨rfl, Nat.min_le_left _ _⟩

/-- Claim C9: whenever `balance_classes` returns, its output is a
reindexing of the input by a duplicate-free list of in-range positions:
the `j`-th output feature row and label are the input feature row and
label at one and the same input index, and no input index is used twice. -/
theorem balance_classes_reindex (select : List Nat → Nat → List Nat)
    (shuffle : List Nat → List Nat) (X : List (List Int)) (y : List Int)
    (targetSize : Option Nat) (t : Nat) (hsel : SelectSpec select)
    (hshuf : ShuffleSpec shuffle) (hXy : X.length = y.length)
    (ht : resolvedTarget y targetSize = some t) :
    ∃ (idxs : List Nat) (Xb : List (List Int)) (yb : List Int),
      balance_classes select shuffle X y targetSize = some (Xb, yb) ∧
      idxs.Nodup ∧
      (∀ i ∈ idxs, i < X.length ∧ i < y.length) ∧
      Xb = idxs.map (fun i => X.getD i []) ∧
      yb = idxs.map (fun i => y.getD i 0) ∧
      ∀ j, j < idxs.length →
        Xb.getD j [] = X.getD (idxs.getD j 0) [] ∧
        yb.getD j 0 = y.getD (idxs.getD j 0) 0 := by
  refine ⟨shuffle (balancedIndices select y t),
    (shuffle (balancedIndices select y t)).map (fun i => X.getD i []),
    (shuffle (balancedIndices select y t)).map (fun i => y.getD i 0),
    ?_, ?_, ?_, rfl, rfl, ?_⟩
  · rw [balance_classes, ht]
  · apply (hshuf _).symm.nodup
    rw [balancedIndices, List.nodup_flatten]
    constructor
    · intro l hl
      obtain ⟨cb, _, rfl⟩ := List.mem_map.mp hl
      exact classSelection_nodup hsel y t cb
    · rw [List.pairwise_map]
      apply List.Pairwise.imp ?_ (uniqueClasses_nodup y)
      intro a b hab x hxa hxb
      have h1 := label_of_mem_classIndices
        (classSelection_subset hsel y t a x hxa)
      have h2 := label_of_mem_classIndices
        (classSelection_subset hsel y t b x hxb)
      exact hab (h1 ▸ h2 ▸ rfl)
  · intro i hi
    have hmem : i ∈ balancedIndices select y t := (hshuf _).mem_iff.mp hi
    rw [balancedIndices, List.mem_flatten] at hmem
    obtain ⟨l, hl, hil⟩ := hmem
    obtain ⟨cb, _, rfl⟩ := List.mem_map.mp hl
    have := (mem_classIndices.mp
      (classSelection_subset hsel y t cb i hil)).1
    omega
  · intro j hj
    have hidx : (shuffle (balancedIndices select y t)).getD j 0 =
        (shuffle (balancedIndices select y t))[j] := by
      rw [List.getD_eq_getElem?_getD, List.getElem?_eq_getElem hj]
      rfl
    constructor
    · rw [getD_map_of_lt _ _ hj, hidx]
    · rw [getD_map_of_lt _ _ hj, hidx]

/-- Claim C10: with exactly one distinct class present and no explicit
target size, the default-target computation `np.sort(class_counts)[-2]`
raises IndexError, modelled as `none`. -/
theorem balance_classes_single_class (select : List Nat → Nat → List Nat)
    (shuffle : List Nat → List Nat) (X : List (List Int)) (y : List Int)
    (h1 : (uniqueClasses y).length = 1) :
    balance_classes select shuffle X y none = none := by
  have hlen : (List.insertionSort (· ≤ ·)
      ((uniqueClasses y).map (fun c => y.count c))).length = 1 := by
    rw [(List.perm_insertionSort _ _).length_eq, List.length_map, h1]
  have hdt : defaultTarget y = none := by
    rw [defaultTarget]
    rw [if_neg (by rw [hlen]; omega)]
  rw [balance_classes, resolvedTarget, hdt]

/-- `takeSelect` satisfies the contract assumed of
`np.random.choice(l, n, replace=False)`. -/
theorem takeSelect_spec : SelectSpec takeSelect := by
  intro l n hn
  refine ⟨?_, ?_, ?_⟩
  · rw [takeSelect, List.length_take]
    omega
  · intro x hx
    exact List.take_subset n l hx
  · intro h
    exact (List.take_sublist n l).nodup h

/-- The identity function satisfies the contract assumed of a random
shuffle. -/
theorem id_shuffle_spec {α : Type} : ShuffleSpec (fun l : List α => l) :=
  fun l => List.Perm.refl l

/-- Witness for C3: 3 samples of class 0 and 2 of class 1, no explicit
target; the default target is the second-largest class size, 2. -/
theorem balance_classes_counts_witness :
    (SelectSpec takeSelect ∧ ShuffleSpec (fun l : List Nat => l) ∧
      2 ≤ (uniqueClasses [0, 0, 0, 1, 1]).length) ∧
    ∃ t Xb yb,
      resolvedTarget [0, 0, 0, 1, 1] none = some t ∧
      (∀ t0, (none : Option Nat) = some t0 → t = t0) ∧
      balance_classes takeSelect (fun l => l)
        [[1], [2], [3], [4], [5]] [0, 0, 0, 1, 1] none = some (Xb, yb) ∧
      ∀ c, c ∈ ([0, 0, 0, 1, 1] : List Int) →
        yb.count c = min (([0, 0, 0, 1, 1] : List Int).count c) t ∧
        yb.count c ≤ ([0, 0, 0, 1, 1] : List Int).count c :=
  ⟨⟨takeSelect_spec, id_shuffle_spec, by decide⟩,
    balance_classes_counts takeSelect (fun l => l)
      [[1], [2], [3], [4], [5]] [0, 0, 0, 1, 1] none
      takeSelect_spec id_shuffle_spec (by decide)⟩

/-- Witness for C9 at the same concrete balanced input, explicit target 1. -/
theorem balance_classes_reindex_witness :
    (SelectSpec takeSelect ∧ ShuffleSpec (fun l : List Nat => l) ∧
      ([[1], [2], [3], [4], [5]] : List (List Int)).length =
        ([0, 0, 0, 1, 1] : List Int).length ∧
      resolvedTarget [0, 0, 0, 1, 1] (some 1) = some 1) ∧
    ∃ (idxs : List Nat) (Xb : List (List Int)) (yb : List Int),
      balance_classes takeSelect (fun l => l)
        [[1], [2], [3], [4], [5]] [0, 0, 0, 1, 1] (some 1) = some (Xb, yb) ∧
      idxs.Nodup ∧
      (∀ i ∈ idxs, i < ([[1], [2], [3], [4], [5]] : List (List Int)).length ∧
        i < ([0, 0, 0, 1, 1] : List Int).length) ∧
      Xb = idxs.map (fun i => ([[1], [2], [3], [4], [5]] :
        List (List Int)).getD i []) ∧
      yb = idxs.map (fun i => ([0, 0, 0, 1, 1] : List Int).getD i 0) ∧
      ∀ j, j < idxs.length →
        Xb.getD j [] = ([[1], [2], [3], [4], [5]] :
          List (List Int)).getD (idxs.getD j 0) [] ∧
        yb.getD j 0 = ([0, 0, 0, 1, 1] : List Int).getD (idxs.getD j 0) 0 :=
  ⟨⟨takeSelect_spec, id_shuffle_spec, by decide, by decide⟩,
    balance_classes_reindex takeSelect (fun l => l)
      [[1], [2], [3], [4], [5]] [0, 0, 0, 1, 1] (some 1) 1
      takeSelect_spec id_shuffle_spec (by decide) (by decide)⟩

/-- Encoding a label through `le.transform` and counting the encoded index
recovers the plain class count. -/
theorem count_indexOf_map (y : List Int) {c : Int} (hc : c ∈ y) :
    (y.map (fun v => (uniqueClasses y).indexOf v)).count
      ((uniqueClasses y).indexOf c) = y.count c := by
  have hk : (uniqueClasses y).indexOf c < (uniqueClasses y).length :=
    List.indexOf_lt_length.mpr (mem_uniqueClasses.mpr hc)
  rw [List.count_eq_countP, List.countP_map, List.count_eq_countP]
  apply List.countP_congr
  intro v hv
  have hvmem : v ∈ uniqueClasses y := mem_uniqueClasses.mpr hv
  have hv1 : (uniqueClasses y).indexOf v < (uniqueClasses y).length :=
    List.indexOf_lt_length.mpr hvmem
  simp only [Function.comp, beq_iff_eq]
  constructor
  · intro h
    have h2 : v = (uniqueClasses y)[(uniqueClasses y).indexOf v] :=
      (List.getElem_indexOf hv1).symm
    rw [h2]
    simp only [h]
    exact List.getElem_indexOf hk
  · intro h
    rw [h]

/-- Claim C5: the class weight computed over the balanced labels for a
class `c` present in them is `N / (K * count(c))`, with `N` the number of
balanced samples and `K` the number of distinct classes present (the
sklearn 'balanced' scheme, here over exact rationals). -/
theorem compute_class_weight_spec (y : List Int) (c : Int) (hc : c ∈ y) :
    (uniqueClasses y).indexOf c < (compute_class_weight y).length ∧
    (compute_class_weight y).getD ((uniqueClasses y).indexOf c) 0 =
      (y.length : ℚ) / ((uniqueClasses y).length * (y.count c)) := by
  have hcc : c ∈ uniqueClasses y := mem_uniqueClasses.mpr hc
  have hk : (uniqueClasses y).indexOf c < (uniqueClasses y).length :=
    List.indexOf_lt_length.mpr hcc
  have hlen : (compute_class_weight y).length = (uniqueClasses y).length := by
    simp [compute_class_weight]
  constructor
  · rw [hlen]
    exact hk
  · have hkr : (uniqueClasses y).indexOf c <
        (List.range (uniqueClasses y).length).length := by
      simpa using hk
    simp only [compute_class_weight]
    rw [getD_map_of_lt _ _ hkr, List.getElem_range,
      getD_map_of_lt _ _ hkr, List.getElem_range,
      count_indexOf_map y hc]

/-- Witness for C5: three samples, class 1 present once among two
classes; its weight is 3 / (2 * 1). -/
theorem compute_class_weight_spec_witness :
    (1 : Int) ∈ ([0, 0, 1] : List Int) ∧
    ((uniqueClasses [0, 0, 1]).indexOf 1 <
      (compute_class_weight [0, 0, 1]).length ∧
    (compute_class_weight [0, 0, 1]).getD
        ((uniqueClasses [0, 0, 1]).indexOf 1) 0 =
      (([0, 0, 1] : List Int).length : ℚ) /
        ((uniqueClasses [0, 0, 1]).length *
          (([0, 0, 1] : List Int).count 1))) :=
  ⟨by decide, compute_class_weight_spec [0, 0, 1] 1 (by decide)⟩

/-- Counting one label among the second components of pairs that all carry
one fixed label. -/
theorem count_map_snd_of_const {l : List (List Int × Int)} {c0 c : Int}
    (hl : ∀ p ∈ l, p.2 = c0) :
    ((l.map Prod.snd).count c) = if c0 = c then l.length else 0 := by
  rw [List.count_eq_countP, List.countP_map]
  by_cases h : c0 = c
  · rw [if_pos h]
    apply List.countP_eq_length.mpr
    intro p hp
    show (p.2 == c) = true
    rw [hl p hp, h]
    simp
  · rw [if_neg h]
    apply List.countP_eq_zero.mpr
    intro p hp
    show ¬ (p.2 == c) = true
    rw [hl p hp]
    simp [h]

/-- The boolean mask `X_balanced[y_balanced == c]` picks out exactly
`count(c)` rows. -/
theorem filter_zip_length (Xb : List (List Int)) (yb : List Int)
    (hXy : Xb.length = yb.length) (c : Int) :
    ((Xb.zip yb).filter (fun p => decide (p.2 = c))).length = yb.count c := by
  rw [← List.countP_eq_length_filter]
  have hyb : (Xb.zip yb).map Prod.snd = yb :=
    List.map_snd_zip _ _ (le_of_eq hXy.symm)
  conv_rhs => rw [← hyb]
  rw [List.count_eq_countP, List.countP_map]
  apply List.countP_congr
  intro p _
  simp

/-- `train_test_split(test_size=0.2)` on at least two samples: it succeeds,
the test part receives `ceil(0.2 * n)` samples, the train part the rest,
and together they permute the input. -/
theorem tts_spec {shuffle : List (List Int × Int) → List (List Int × Int)}
    (hshuf : ShuffleSpec shuffle) (l : List (List Int × Int))
    (h2 : 2 ≤ l.length) :
    ∃ tr te, train_test_split_pairs shuffle l = some (tr, te) ∧
      te.length = testCount l.length ∧
      tr.length = l.length - testCount l.length ∧
      (tr ++ te).Perm l := by
  have hlen : (shuffle l).length = l.length := (hshuf l).length_eq
  have ht : testCount l.length = (l.length + 4) / 5 := rfl
  refine ⟨(shuffle l).drop (testCount l.length),
    (shuffle l).take (testCount l.length), ?_, ?_, ?_, ?_⟩
  · rw [train_test_split_pairs, if_neg (by omega)]
  · rw [List.length_take, hlen]
    omega
  · rw [List.length_drop, hlen]
  · refine List.perm_append_comm.trans ?_
    rw [List.take_append_drop]
    exact hshuf l

/-- The per-class split loop on a duplicate-free class list whose classes
all have at least two samples: it succeeds, the train and test parts
together permute the per-class masks, and the label counts of the test
(resp. train) parts are `ceil(n_c / 5)` (resp. the rest) for listed
classes and zero otherwise. -/
theorem splitClasses_spec
    {shuffle : List (List Int × Int) → List (List Int × Int)}
    (hshuf : ShuffleSpec shuffle) (pairs : List (List Int × Int)) :
    ∀ C : List Int, C.Nodup →
      (∀ c ∈ C, 2 ≤ (pairs.filter (fun p => decide (p.2 = c))).length) →
      ∃ trs tes,
        splitClasses shuffle pairs C = some (trs, tes) ∧
        (trs.flatten ++ tes.flatten).Perm
          ((C.map (fun c =>
            pairs.filter (fun p => decide (p.2 = c)))).flatten) ∧
        (∀ c, (tes.flatten.map Prod.snd).count c =
          if c ∈ C then
            testCount (pairs.filter (fun p => decide (p.2 = c))).length
          else 0) ∧
        (∀ c, (trs.flatten.map Prod.snd).count c =
          if c ∈ C then
            (pairs.filter (fun p => decide (p.2 = c))).length -
              testCount (pairs.filter (fun p => decide (p.2 = c))).length
          else 0) := by
  intro C
  induction C with
  | nil =>
      intro _ _
      exact ⟨[], [], rfl, by simp, by simp, by simp⟩
  | cons c0 cs ih =>
      intro hnd hmin
      obtain ⟨hc0, hcs⟩ := List.nodup_cons.mp hnd
      obtain ⟨tr0, te0, htts, hteLen, htrLen, hperm0⟩ :=
        tts_spec hshuf (pairs.filter (fun p => decide (p.2 = c0)))
          (hmin c0 (List.mem_cons_self c0 cs))
      obtain ⟨trs, tes, hrec, hperm, hteC, htrC⟩ :=
        ih hcs (fun c hcmem => hmin c (List.mem_cons_of_mem c0 hcmem))
      have htr0lab : ∀ p ∈ tr0, p.2 = c0 := by
        intro p hp
        have hmem : p ∈ pairs.filter (fun p => decide (p.2 = c0)) :=
          hperm0.subset (List.mem_append_left te0 hp)
        simpa using (List.mem_filter.mp hmem).2
      have hte0lab : ∀ p ∈ te0, p.2 = c0 := by
        intro p hp
        have hmem : p ∈ pairs.filter (fun p => decide (p.2 = c0)) :=
          hperm0.subset (List.mem_append_right tr0 hp)
        simpa using (List.mem_filter.mp hmem).2
      refine ⟨tr0 :: trs, te0 :: tes, ?_, ?_, ?_, ?_⟩
      · simp only [splitClasses]
        rw [htts, hrec]
      · simp only [List.flatten_cons, List.map_cons]
        have hmid : (trs.flatten ++ (te0 ++ tes.flatten)).Perm
            (te0 ++ (trs.flatten ++ tes.flatten)) := by
          have h1 : (trs.flatten ++ (te0 ++ tes.flatten))
              = (trs.flatten ++ te0) ++ tes.flatten :=
            (List.append_assoc _ _ _).symm
          have h2 : ((trs.flatten ++ te0) ++ tes.flatten).Perm
              ((te0 ++ trs.flatten) ++ tes.flatten) :=
            List.Perm.append_right _ List.perm_append_comm
          rw [h1]
          exact h2.trans (by rw [List.append_assoc])
        have h3 : ((tr0 ++ trs.flatten) ++ (te0 ++ tes.flatten)).Perm
            ((tr0 ++ te0) ++ (trs.flatten ++ tes.flatten)) := by
          rw [List.append_assoc]
          refine (List.Perm.append_left tr0 hmid).trans ?_
          rw [List.append_assoc]
        exact h3.trans (hperm0.append hperm)
      · intro c
        simp only [List.flatten_cons, List.map_append, List.count_append]
        rw [count_map_snd_of_const hte0lab, hteC c]
        by_cases h1 : c = c0
        · subst h1
          simp [hc0, hteLen]
        · have h1' : ¬ c0 = c := fun he => h1 he.symm
          by_cases h2 : c ∈ cs <;> simp [h1, h1', h2]
      · intro c
        simp only [List.flatten_cons, List.map_append, List.count_append]
        rw [count_map_snd_of_const htr0lab, htrC c]
        by_cases h1 : c = c0
        · subst h1
          simp [hc0, htrLen]
        · have h1' : ¬ c0 = c := fun he => h1 he.symm
          by_cases h2 : c ∈ cs <;> simp [h1, h1', h2]

/-- Splitting a list into its per-class masks along a duplicate-free class
list that covers every label, then concatenating, permutes the list. -/
theorem flatten_filter_perm :
    ∀ (C : List Int) (pairs : List (List Int × Int)), C.Nodup →
      (∀ p ∈ pairs, p.2 ∈ C) →
      ((C.map (fun c =>
        pairs.filter (fun p => decide (p.2 = c)))).flatten).Perm pairs := by
  intro C
  induction C with
  | nil =>
      intro pairs _ hall
      have hnil : pairs = [] := List.eq_nil_iff_forall_not_mem.mpr (by
        intro p hp
        exact absurd (hall p hp) (List.not_mem_nil _))
      rw [hnil]
      simp
  | cons c0 cs ih =>
      intro pairs hnd hall
      obtain ⟨hc0, hcs⟩ := List.nodup_cons.mp hnd
      simp only [List.map_cons, List.flatten_cons]
      have hblocks : cs.map (fun c =>
            pairs.filter (fun p => decide (p.2 = c)))
          = cs.map (fun c =>
            (pairs.filter (fun p => ! decide (p.2 = c0))).filter
              (fun p => decide (p.2 = c))) := by
        apply List.map_congr_left
        intro c hcmem
        rw [List.filter_filter]
        apply List.filter_congr
        intro p _
        by_cases h : p.2 = c
        · have hcc0 : ¬ c = c0 := by
            intro he2
            exact hc0 (by rw [← he2]; exact hcmem)
          have hne : ¬ p.2 = c0 := by
            rw [h]
            exact hcc0
          simp [h, hne, hcc0]
        · simp [h]
      have hmem' : ∀ p ∈ pairs.filter (fun p => ! decide (p.2 = c0)),
          p.2 ∈ cs := by
        intro p hp
        have hsplit := List.mem_filter.mp hp
        rcases List.mem_cons.mp (hall p hsplit.1) with he | he
        · exfalso
          have := hsplit.2
          simp [he] at this
        · exact he
      have ihp := ih (pairs.filter (fun p => ! decide (p.2 = c0))) hcs hmem'
      rw [hblocks]
      exact (List.Perm.append_left _ ihp).trans
        (List.filter_append_perm _ pairs)

/-- Claim C4 (amended): provided the distinct balanced classes are exactly
`0 .. K-1` (`K` the number of distinct classes) and every present class
has at least two samples, the split stage of `prepare_train_test_data`
succeeds; per class `c` the test set receives `ceil(0.2 * count(c))` of
the class's samples and the training set the rest, and together the train
and test (row, label) pairs are a permutation of the balanced dataset, so
every balanced sample lands in exactly one of the two sets. -/
theorem stratifiedSplit_partition
    (shuffle : List (List Int × Int) → List (List Int × Int))
    (Xb : List (List Int)) (yb : List Int)
    (hshuf : ShuffleSpec shuffle) (hXy : Xb.length = yb.length)
    (hcls : uniqueClasses yb =
      (List.range (uniqueClasses yb).length).map (fun i => (i : Int)))
    (hmin : ∀ c ∈ uniqueClasses yb, 2 ≤ yb.count c) :
    ∃ Xtr Xte ytr yte,
      stratifiedSplit shuffle Xb yb = some (Xtr, Xte, ytr, yte) ∧
      (∀ c ∈ uniqueClasses yb,
        yte.count c = testCount (yb.count c) ∧
        ytr.count c = yb.count c - testCount (yb.count c)) ∧
      ((Xtr.zip ytr) ++ (Xte.zip yte)).Perm (Xb.zip yb) := by
  have hfl : ∀ c,
      ((Xb.zip yb).filter (fun p => decide (p.2 = c))).length = yb.count c :=
    filter_zip_length Xb yb hXy
  have hmin' : ∀ c ∈ uniqueClasses yb,
      2 ≤ ((Xb.zip yb).filter (fun p => decide (p.2 = c))).length := by
    intro c hcm
    rw [hfl c]
    exact hmin c hcm
  obtain ⟨trs, tes, hsc, hperm, hteC, htrC⟩ :=
    splitClasses_spec hshuf (Xb.zip yb) (uniqueClasses yb)
      (uniqueClasses_nodup yb) hmin'
  refine ⟨trs.flatten.map Prod.fst, tes.flatten.map Prod.fst,
    trs.flatten.map Prod.snd, tes.flatten.map Prod.snd, ?_, ?_, ?_⟩
  · simp only [stratifiedSplit]
    rw [← hcls, hsc]
  · intro c hcm
    constructor
    · rw [hteC c, if_pos hcm, hfl c]
    · rw [htrC c, if_pos hcm, hfl c]
  · have hz1 : (trs.flatten.map Prod.fst).zip (trs.flatten.map Prod.snd)
        = trs.flatten := by
      rw [List.zip_map']
      exact List.map_id _
    have hz2 : (tes.flatten.map Prod.fst).zip (tes.flatten.map Prod.snd)
        = tes.flatten := by
      rw [List.zip_map']
      exact List.map_id _
    rw [hz1, hz2]
    refine hperm.trans ?_
    apply flatten_filter_perm (uniqueClasses yb) (Xb.zip yb)
      (uniqueClasses_nodup yb)
    intro p hp
    obtain ⟨a, b⟩ := p
    exact mem_uniqueClasses.mpr (List.of_mem_zip hp).2

/-- Counterexample for C4 as stated: the split loop iterates over
`range(len(unique_labels))`, not over the classes actually present. With
balanced classes `{0, 2}` the loop masks class 1, whose empty mask makes
`train_test_split` raise, so no sample of the present class 2 lands in
either set; likewise singleton classes (here `{0, 1}` with one sample
each) make `train_test_split` raise because the train part would be
empty. -/
theorem stratifiedSplit_cex :
    stratifiedSplit (fun l => l)
      [[1], [2], [3], [4], [5], [6], [7], [8], [9], [10]]
      [0, 0, 0, 0, 0, 2, 2, 2, 2, 2] = none ∧
    stratifiedSplit (fun l => l) [[1], [2]] [0, 1] = none ∧
    (2 : Int) ∈ ([0, 0, 0, 0, 0, 2, 2, 2, 2, 2] : List Int) ∧
    (0 : Int) ∈ ([0, 1] : List Int) := by
  refine ⟨by decide, by decide, by decide, by decide⟩

/-- Witness for the amended C4: classes 0 and 1 with five samples each. -/
theorem stratifiedSplit_partition_witness :
    (ShuffleSpec (fun l : List (List Int × Int) => l) ∧
      ([[1], [2], [3], [4], [5], [6], [7], [8], [9], [10]] :
        List (List Int)).length =
        ([0, 0, 0, 0, 0, 1, 1, 1, 1, 1] : List Int).length ∧
      uniqueClasses [0, 0, 0, 0, 0, 1, 1, 1, 1, 1] =
        (List.range
          (uniqueClasses [0, 0, 0, 0, 0, 1, 1, 1, 1, 1]).length).map
          (fun i => (i : Int)) ∧
      (∀ c ∈ uniqueClasses [0, 0, 0, 0, 0, 1, 1, 1, 1, 1],
        2 ≤ ([0, 0, 0, 0, 0, 1, 1, 1, 1, 1] : List Int).count c)) ∧
    ∃ Xtr Xte ytr yte,
      stratifiedSplit (fun l => l)
        [[1], [2], [3], [4], [5], [6], [7], [8], [9], [10]]
        [0, 0, 0, 0, 0, 1, 1, 1, 1, 1] = some (Xtr, Xte, ytr, yte) ∧
      (∀ c ∈ uniqueClasses [0, 0, 0, 0, 0, 1, 1, 1, 1, 1],
        yte.count c =
          testCount (([0, 0, 0, 0, 0, 1, 1, 1, 1, 1] : List Int).count c) ∧
        ytr.count c =
          ([0, 0, 0, 0, 0, 1, 1, 1, 1, 1] : List Int).count c -
            testCount
              (([0, 0, 0, 0, 0, 1, 1, 1, 1, 1] : List Int).count c)) ∧
      ((Xtr.zip ytr) ++ (Xte.zip yte)).Perm
        (([[1], [2], [3], [4], [5], [6], [7], [8], [9], [10]] :
          List (List Int)).zip [0, 0, 0, 0, 0, 1, 1, 1, 1, 1]) :=
  ⟨⟨id_shuffle_spec, by decide, by decide, by decide⟩,
    stratifiedSplit_partition (fun l => l)
      [[1], [2], [3], [4], [5], [6], [7], [8], [9], [10]]
      [0, 0, 0, 0, 0, 1, 1, 1, 1, 1]
      id_shuffle_spec (by decide) (by decide) (by decide)⟩

/-- Witness for C10: a two-sample dataset with the single class 5. -/
theorem balance_classes_single_class_witness :
    (uniqueClasses [5, 5]).length = 1 ∧
    balance_classes takeSelect (fun l => l) [[1], [2]] [5, 5] none = none :=
  ⟨by decide,
    balance_classes_single_class takeSelect (fun l => l) [[1], [2]] [5, 5]
      (by decide)⟩

end DataUtils
